import Mathlib

/-!
Verification of the `cubicle` sandbox-environment manager (`dev.py`)
against its natural-language specification.

The source is a single Python script.  We give a shallow embedding of its
data model and operations:

* filesystem and process effects are modelled as explicit event traces;
* times are integers (seconds); machine paths are strings;
* the process environment is a total function `String → String`, with an
  absent variable modelled as the empty string.

Each definition is translated from a named function of `dev.py`.
-/

namespace Cubicle

/-- The ambient host state the script reads at module load time:
`os.environ` (absent variables modelled as `""`), `socket.gethostname()`,
and the directory containing the script (`SCRIPT_PATH`). -/
structure Host where
  env : String → String
  hostname : String
  scriptPath : String

/-- One entry of the `SEEDS` dictionary (dev.py lines 25-98): an optional
explicit source `directory`, the `include` path list, the `depends` list
(`[]` when the key is absent, as `seed.get("depends", [])` yields), and the
optional `update_script`. -/
structure Seed where
  directory : Option String
  includes : List String
  depends : List String
  update_script : Option String

instance : Inhabited Seed := ⟨⟨none, [], [], none⟩⟩

/-- The seed registry: an association list from seed key to its spec,
modelling the insertion-ordered Python dict `SEEDS`. -/
abbrev Registry := List (String × Seed)

/-- The registry's key set in dict iteration order (`SEEDS.keys()`). -/
def keysOf (reg : Registry) : List String := reg.map Prod.fst

/-- Dictionary lookup `SEEDS[key]`.  The default value is never relevant for
keys present in the registry. -/
def seedSpec (reg : Registry) (key : String) : Seed :=
  match reg.find? (fun p => p.1 == key) with
  | some p => p.2
  | none => default

/-- `SEEDS[key].get("depends", [])`. -/
def depsOf (reg : Registry) (key : String) : List String :=
  (seedSpec reg key).depends

/-- `HOME = Path.home()`: resolved from the `HOME` environment variable. -/
def homeOf (host : Host) : String := host.env "HOME"

/-- `CACHE_DIR = Path(os.environ.get("XDG_CACHE_HOME", HOME / ".cache"))`.
An unset variable is modelled as the empty string. -/
def cacheDirOf (host : Host) : String :=
  if host.env "XDG_CACHE_HOME" = "" then homeOf host ++ "/.cache"
  else host.env "XDG_CACHE_HOME"

/-- `WORK_DIRS = SCRIPT_PATH / "work"`. -/
def workDirsOf (host : Host) : String := host.scriptPath ++ "/work"

/-- `HOME_DIRS = CACHE_DIR / "boxes" / "home"`. -/
def homeDirsOf (host : Host) : String := cacheDirOf host ++ "/boxes/home"

/-- The bootstrap init script `SCRIPT_PATH / "dev-init.sh"`. -/
def bootstrapInit (host : Host) : String := host.scriptPath ++ "/dev-init.sh"

/-! ### `update_seed` (dev.py lines 130-148)

The observable side effects of a single `update_seed(key, now)` call, as a
trace.  Inputs abstract the relevant filesystem facts: whether the scratch
work directory `WORK_DIRS/seed-<key>` exists, the mtime of the freshness
marker `HOME_DIRS/seed-<key>/.UPDATED` (`none` when the stat raises
`FileNotFoundError`), the updater script's mtime, and the current time. -/

/-- An observable side effect of `update_seed`. -/
inductive SeedEffect where
  | mkdirWork (name : String)
  | readMarker (name : String)
  | launch (name : String) (seeds : List String) (init : String)
deriving DecidableEq

/-- Effect trace of `update_seed(key, now)` (dev.py lines 130-148).
Returns `[]` immediately when the seed has no `update_script` (the
`KeyError` branch); otherwise it ensures the scratch work directory, stats
the marker (`updated = 0` when absent), and unless
`update_script_mtime < updated and now - updated < 60*60*12`
it launches the sandbox twice: once with the seed's `depends` and the
bootstrap init script, once with no seeds and the updater as init. -/
def update_seed (host : Host) (reg : Registry) (key : String)
    (workExists : Bool) (marker : Option Int) (updaterMtime now : Int) :
    List SeedEffect :=
  match (seedSpec reg key).update_script with
  | none => []
  | some script =>
      (if workExists then [] else [.mkdirWork ("seed-" ++ key)]) ++
      [.readMarker ("seed-" ++ key)] ++
      (if updaterMtime < marker.getD 0 ∧ now - marker.getD 0 < 43200 then []
       else
        [.launch ("seed-" ++ key) (seedSpec reg key).depends (bootstrapInit host),
         .launch ("seed-" ++ key) [] script])

/-- The launcher invocations contained in an `update_seed` trace. -/
def launchesOf (es : List SeedEffect) : List SeedEffect :=
  es.filter (fun e => match e with
    | .launch _ _ _ => true
    | _ => false)

end Cubicle

namespace Cubicle

/-- A demonstration host used to instantiate theorems on concrete inputs. -/
def demoHost : Host :=
  { env := fun v => if v = "HOME" then "/home/u"
      else if v = "SHELL" then "/bin/bash"
      else if v = "TERM" then "xterm"
      else if v = "DISPLAY" then ":0" else ""
    hostname := "box"
    scriptPath := "/opt/cubicle" }

/-- The concrete `SEEDS` registry of dev.py lines 25-98. -/
def SEEDS (host : Host) : Registry :=
  [("configs",
    { directory := some (homeOf host)
      includes := [".bashrc", ".gdbinit", ".gitconfig", ".gitignore",
        ".ipython", ".npmrc", ".profile", ".sqliterc", ".vimrc", ".zshenv",
        ".zshrc", "configs"]
      depends := []
      update_script := none }),
   ("firefox",
    { directory := none
      includes := [".dev-init/firefox.sh", ".mozilla/firefox", "bin/firefox",
        "opt/firefox"]
      depends := []
      update_script := some (host.scriptPath ++ "/firefox-update.sh") }),
   ("go",
    { directory := none
      includes := ["go"]
      depends := []
      update_script := some (host.scriptPath ++ "/go-update.sh") }),
   ("mold",
    { directory := none
      includes := [".cargo/config.toml", "bin/mold"]
      depends := []
      update_script := some (host.scriptPath ++ "/mold-update.sh") }),
   ("node",
    { directory := none
      includes := [".cache/node-versions.json", ".npm", "opt/node"]
      depends := ["configs"]
      update_script := some (host.scriptPath ++ "/node-update.sh") }),
   ("python",
    { directory := none
      includes := [".pylama.ini", "opt/python"]
      depends := []
      update_script := some (host.scriptPath ++ "/python-update.sh") }),
   ("rust",
    { directory := none
      includes := [".cargo", ".local/share/bash-completion/completions",
        ".rustup", ".zfunc"]
      depends := ["mold"]
      update_script := some (host.scriptPath ++ "/rust-update.sh") }),
   ("vscodium",
    { directory := none
      includes := [".dev-init/vscodium.sh", ".vscode-oss", "bin/codium",
        "opt/vscodium"]
      depends := []
      update_script := some (host.scriptPath ++ "/vscodium-update.sh") })]

end Cubicle

namespace Cubicle

/-- C2: for a seed with an updater script, `update_seed` skips the refresh
(makes no launcher invocation) iff `u < t ∧ now - t < 43200` where `u` is
the updater mtime and `t` the marker mtime (0 when absent); otherwise it
invokes the launcher exactly twice, first with the seed's `depends` and the
bootstrap init script, then with no seeds and the updater script as init. -/
theorem update_seed_staleness (host : Host) (reg : Registry) (key : String)
    (workExists : Bool) (marker : Option Int) (u now : Int) (script : String)
    (hs : (seedSpec reg key).update_script = some script) :
    (launchesOf (update_seed host reg key workExists marker u now) = [] ↔
      (u < marker.getD 0 ∧ now - marker.getD 0 < 43200)) ∧
    (¬ (u < marker.getD 0 ∧ now - marker.getD 0 < 43200) →
      launchesOf (update_seed host reg key workExists marker u now) =
        [.launch ("seed-" ++ key) (seedSpec reg key).depends (bootstrapInit host),
         .launch ("seed-" ++ key) [] script]) := by
  by_cases hskip : u < marker.getD 0 ∧ now - marker.getD 0 < 43200 <;>
    cases workExists <;>
      simp [update_seed, hs, launchesOf, hskip]

/-- Witness for `update_seed_staleness`: the `go` seed of the concrete
registry, with an absent marker, refreshes (both boundary behaviour of the
iff and the two launcher calls are checked on concrete numbers). -/
theorem update_seed_staleness_witness :
    (launchesOf (update_seed demoHost (SEEDS demoHost) "go" false none 5 100) = [] ↔
      ((5 : Int) < 0 ∧ (100 : Int) - 0 < 43200)) ∧
    (¬ ((5 : Int) < 0 ∧ (100 : Int) - 0 < 43200) →
      launchesOf (update_seed demoHost (SEEDS demoHost) "go" false none 5 100) =
        [.launch "seed-go" (seedSpec (SEEDS demoHost) "go").depends
            (bootstrapInit demoHost),
         .launch "seed-go" [] "/opt/cubicle/go-update.sh"]) :=
  update_seed_staleness demoHost (SEEDS demoHost) "go" false none 5 100
    "/opt/cubicle/go-update.sh" (by decide)

/-- C10: for a seed with no updater script, `update_seed` returns
immediately with no side effect at all: no scratch-directory creation, no
marker access, no launcher invocation, for every marker state and time. -/
theorem update_seed_no_updater (host : Host) (reg : Registry) (key : String)
    (workExists : Bool) (marker : Option Int) (u now : Int)
    (hn : (seedSpec reg key).update_script = none) :
    update_seed host reg key workExists marker u now = [] := by
  unfold update_seed
  rw [hn]

/-- Witness for `update_seed_no_updater`: the `configs` seed (which has no
updater) produces an empty trace even with a stale marker. -/
theorem update_seed_no_updater_witness :
    update_seed demoHost (SEEDS demoHost) "configs" false (some 3) 99 999999 = [] :=
  update_seed_no_updater demoHost (SEEDS demoHost) "configs" false (some 3) 99 999999
    (by decide)

/-! ### Environment store: `new_environment` (dev.py lines 301-310) and
`reset_environment` (dev.py lines 377-393)

Both are modelled as traces of the state-changing steps they perform, with
the relevant filesystem facts (existence of `WORK_DIRS/name` and
`HOME_DIRS/name`) as explicit inputs. -/

/-- An observable step of an environment-store operation. -/
inductive Action where
  | exitFail
  | updateSeedsAll
  | mkdirWorkDir (name : String)
  | deleteHomeDir (name : String)
  | launch (name : String) (seeds : List String) (init : Option String)
deriving DecidableEq

/-- Trace of `new_environment(name, seeds)` (dev.py lines 301-310): when
either directory for `name` exists it prints an error and exits non-zero;
otherwise it batch-refreshes the seeds, creates the work directory and
launches the sandbox once with the bootstrap init script. -/
def new_environment (host : Host) (name : String) (seeds : List String)
    (workExists homeExists : Bool) : List Action :=
  if workExists || homeExists then [.exitFail]
  else
    [.updateSeedsAll, .mkdirWorkDir name,
     .launch name seeds (some (bootstrapInit host))]

/-- Trace of `reset_environment(name, seeds, clean)` (dev.py lines
377-393).  The `clean` parameter of the Python function is accepted but
never read: line 391 tests the CLI-global `args.clean` instead, so the
model takes both the parameter `clean` and the global `argsClean`. -/
def reset_environment (host : Host) (name : String) (seeds : List String)
    (clean argsClean : Bool) (workExists homeExists : Bool) : List Action :=
  if name.startsWith "seed-" then [.exitFail]
  else if !workExists then [.exitFail]
  else
    (if homeExists then [.deleteHomeDir name] else []) ++
    (if !argsClean then
      [.updateSeedsAll, .launch name seeds (some (bootstrapInit host))]
     else [])

/-- C3: `new_environment` fails with no state mutation whenever either
directory exists, and otherwise refreshes seeds, creates the work directory
and launches the sandbox exactly once with the bootstrap init script and
the requested seeds. -/
theorem new_environment_spec (host : Host) (name : String)
    (seeds : List String) (workExists homeExists : Bool) :
    ((workExists = true ∨ homeExists = true) →
      new_environment host name seeds workExists homeExists = [.exitFail]) ∧
    (workExists = false → homeExists = false →
      new_environment host name seeds workExists homeExists =
        [.updateSeedsAll, .mkdirWorkDir name,
         .launch name seeds (some (bootstrapInit host))]) := by
  constructor
  · rintro (h | h) <;> simp [new_environment, h]
  · intro hw hh
    simp [new_environment, hw, hh]

/-- Witness for `new_environment_spec`: with an existing work directory the
trace is a bare failure, and with neither directory present the successful
trace is produced. -/
theorem new_environment_spec_witness :
    (new_environment demoHost "x" ["go"] true false = [.exitFail]) ∧
    (new_environment demoHost "x" ["go"] false false =
      [.updateSeedsAll, .mkdirWorkDir "x",
       .launch "x" ["go"] (some (bootstrapInit demoHost))]) :=
  ⟨(new_environment_spec demoHost "x" ["go"] true false).1 (Or.inl rfl),
   (new_environment_spec demoHost "x" ["go"] false false).2 rfl rfl⟩

/-- C4 (code bug): `reset_environment` ignores its `clean` parameter.  With
`clean = true` requested but the CLI-global `args.clean` false, the
function still batch-refreshes the seeds and re-runs the bootstrap, against
the claim; evaluated here on the concrete failing input (an existing
environment `x`, `clean = true`, global `args.clean = false`). -/
theorem reset_environment_clean_ignored :
    reset_environment demoHost "x" ["go"] true false true true =
      [.deleteHomeDir "x", .updateSeedsAll,
       .launch "x" ["go"] (some (bootstrapInit demoHost))] := by
  decide

/-! ### The Sandbox Launcher: `run` (dev.py lines 414-503)

`run` is modelled as a pure function from its arguments, the ambient host
state, the two file descriptors the script opens (the tar pipe's read end
and the seccomp program), and the exit statuses of the two children, to a
record of everything it assembles and does: the archiver command line, the
`bwrap` argument vector, the explicit environment mapping, the descriptors
passed through, the `wait` calls made in order, and the raised failure. -/

/-- `shlex.quote`'s safe-character set (Python `shlex._find_unsafe`). -/
def shlexSafeChar (c : Char) : Bool :=
  c.isAlphanum || c == '@' || c == '%' || c == '+' || c == '=' || c == ':' ||
    c == ',' || c == '.' || c == '/' || c == '-' || c == '_'

/-- `shlex.quote(s)`. -/
def shlexQuote (s : String) : String :=
  if s.isEmpty then "''"
  else if s.toList.all shlexSafeChar then s
  else "'" ++ s.replace "'" "'\"'\"'" ++ "'"

/-- `shlex.join(cmd)`. -/
def shlexJoin (cmd : List String) : String :=
  String.intercalate " " (cmd.map shlexQuote)

/-- The seed's archive source directory (dev.py lines 429-432): the
declared `directory` when present, else the materialised home
`HOME_DIRS/seed-<key>`. -/
def seedSourceDir (host : Host) (reg : Registry) (key : String) : String :=
  match (seedSpec reg key).directory with
  | some d => d
  | none => homeDirsOf host ++ "/seed-" ++ key

/-- The `tar` argument vector built by the loop of dev.py lines 426-433:
starting from `["tar", "-c"]`, for each seed in order append
`--directory <source>` then its include list. -/
def tarArgs (host : Host) (reg : Registry) (seeds : List String) :
    List String :=
  seeds.foldl
    (fun acc s =>
      acc ++ ["--directory", seedSourceDir host reg s] ++
        (seedSpec reg s).includes)
    ["tar", "-c"]

/-- Modelled from the spec: the shape the spec prescribes for the archive
command, "`--directory <seed-source>` + its include list for each seed, in
caller-specified order" appended to the archiver invocation.  Used only to
compare with `tarArgs`, which is translated from the source loop. -/
def specTarArgs (host : Host) (reg : Registry) : List String → List String
  | [] => []
  | s :: rest =>
      ["--directory", seedSourceDir host reg s] ++ (seedSpec reg s).includes ++
        specTarArgs host reg rest

/-- The `--ro-bind-try init /dev/shm/init.sh` directive, present iff an
init script was given (dev.py line 448). -/
def initBindArgs (init : Option String) : List String :=
  match init with
  | some i => ["--ro-bind-try", i, "/dev/shm/init.sh"]
  | none => []

/-- The command vector after `--` (dev.py lines 473-479): the shell running
the staged init script if any, else the shell running the joined exec
command if any, else the bare interactive shell. -/
def commandTail (shell : String) (init : Option String)
    (execCmd : Option (List String)) : List String :=
  match init, execCmd with
  | some _, _ => [shell, "-c", "/dev/shm/init.sh"]
  | none, some cmd => [shell, "-c", shlexJoin cmd]
  | none, none => [shell]

/-- The fixed head of the `bwrap` argument vector (dev.py lines 439-448),
up to and including the optional init-script bind. -/
def bwrapHead (host : Host) (name : String) (init : Option String) :
    List String :=
  ["bwrap", "--die-with-parent", "--unshare-cgroup", "--unshare-ipc",
   "--unshare-pid", "--unshare-uts",
   "--hostname", name ++ "." ++ host.hostname,
   "--symlink", "/usr/bin", "/bin",
   "--dev", "/dev"] ++ initBindArgs init

/-- The `--file <fd> /dev/shm/seed.tar` directive exposing the archive
pipe, present iff an archiver was started (dev.py lines 449-453). -/
def seedFileArgs (hasSeed : Bool) (seedFd : Nat) : List String :=
  if hasSeed then ["--file", toString seedFd, "/dev/shm/seed.tar"] else []

/-- The remainder of the `bwrap` argument vector (dev.py lines 454-479). -/
def bwrapTail (host : Host) (name : String) (seccompFd : Nat)
    (init : Option String) (execCmd : Option (List String)) : List String :=
  ["--ro-bind-try", "/etc", "/etc",
   "--bind", homeDirsOf host ++ "/" ++ name, homeOf host,
   "--dir", homeOf host ++ "/.dev-init",
   "--dir", homeOf host ++ "/bin",
   "--dir", homeOf host ++ "/opt",
   "--dir", homeOf host ++ "/tmp",
   "--bind", workDirsOf host ++ "/" ++ name, homeOf host ++ "/" ++ name,
   "--symlink", "/usr/lib", "/lib",
   "--symlink", "/usr/lib64", "/lib64",
   "--ro-bind-try", "/opt", "/opt",
   "--proc", "/proc",
   "--symlink", "/usr/sbin", "/sbin",
   "--tmpfs", "/tmp",
   "--ro-bind-try", "/usr", "/usr",
   "--ro-bind-try", "/var/lib/apt/lists/", "/var/lib/apt/lists/",
   "--ro-bind-try", "/var/lib/dpkg/", "/var/lib/dpkg/",
   "--seccomp", toString seccompFd,
   "--chdir", homeOf host ++ "/" ++ name,
   "--"] ++
  commandTail (host.env "SHELL") init execCmd

/-- Everything `run(name, seeds, init, exec)` assembles and does. -/
structure RunResult where
  tarCmd : Option (List String)
  bwrapArgs : List String
  bwrapEnv : List (String × String)
  passFds : List Nat
  waits : List String
  failure : Option (Int × String)
  tarReaped : Option Int
deriving DecidableEq

/-- `run(name, seeds=[], init=False, exec=False)` (dev.py lines 414-503).
`seedFd` is `seed.stdout.fileno()` (the archiver pipe's read end), and
`seccompFd` is the opened `podman.bpf`'s descriptor; `bwrapExit` and
`tarExit` are the children's exit statuses.  The archiver is started iff
`seeds` is non-empty; `bwrap` is always started; the parent waits on
`bwrap`, raises `CalledProcessError(returncode, "bwrap")` on a non-zero
status (skipping the archiver reap), and otherwise reaps the archiver
without inspecting its status. -/
def run (host : Host) (reg : Registry) (name : String) (seeds : List String)
    (init : Option String) (execCmd : Option (List String))
    (seedFd seccompFd : Nat) (bwrapExit tarExit : Int) : RunResult :=
  let home := homeOf host
  let hasSeed := !seeds.isEmpty
  { tarCmd := if seeds.isEmpty then none else some (tarArgs host reg seeds)
    bwrapArgs :=
      bwrapHead host name init ++ seedFileArgs hasSeed seedFd ++
        bwrapTail host name seccompFd init execCmd
    bwrapEnv :=
      [("DISPLAY", host.env "DISPLAY"),
       ("HOME", host.env "HOME"),
       ("PATH", home ++ "/bin:/bin:/sbin"),
       ("SANDBOX", name),
       ("SHELL", host.env "SHELL"),
       ("TERM", host.env "TERM"),
       ("TMPDIR", home ++ "/tmp")]
    passFds := (if hasSeed then [seedFd] else []) ++ [seccompFd]
    waits :=
      if bwrapExit ≠ 0 then ["bwrap"]
      else "bwrap" :: (if hasSeed then ["tar"] else [])
    failure := if bwrapExit ≠ 0 then some (bwrapExit, "bwrap") else none
    tarReaped :=
      if bwrapExit = 0 && hasSeed then some tarExit else none }

/-- The archive construction loop is equivalent to the per-seed
concatenation in caller order. -/
theorem tarArgs_eq_spec (host : Host) (reg : Registry) (seeds : List String) :
    tarArgs host reg seeds = ["tar", "-c"] ++ specTarArgs host reg seeds := by
  suffices h : ∀ (pre : List String),
      seeds.foldl
        (fun acc s =>
          acc ++ ["--directory", seedSourceDir host reg s] ++
            (seedSpec reg s).includes) pre =
        pre ++ specTarArgs host reg seeds by
    exact h ["tar", "-c"]
  induction seeds with
  | nil => intro pre; simp [specTarArgs]
  | cons s rest ih =>
      intro pre
      rw [List.foldl_cons, ih]
      simp [specTarArgs, List.append_assoc]

/-- C7: with at least one requested seed, `run` builds a single archiver
command listing, for each seed in caller order, `--directory` followed by
that seed's source directory followed by its include list; the archive pipe
descriptor is passed into the sandbox and exposed at `/dev/shm/seed.tar`;
and with no seeds no archiver is started and only the seccomp descriptor is
passed. -/
theorem run_tar_construction (host : Host) (reg : Registry) (name : String)
    (seeds : List String) (init : Option String) (execCmd : Option (List String))
    (seedFd seccompFd : Nat) (bwrapExit tarExit : Int)
    (hne : seeds ≠ []) :
    ((run host reg name seeds init execCmd seedFd seccompFd bwrapExit tarExit).tarCmd =
      some (["tar", "-c"] ++ specTarArgs host reg seeds)) ∧
    (∃ pre post,
      (run host reg name seeds init execCmd seedFd seccompFd bwrapExit tarExit).bwrapArgs =
        pre ++ ["--file", toString seedFd, "/dev/shm/seed.tar"] ++ post) ∧
    ((run host reg name seeds init execCmd seedFd seccompFd bwrapExit tarExit).passFds =
      [seedFd, seccompFd]) ∧
    ((run host reg name [] init execCmd seedFd seccompFd bwrapExit tarExit).tarCmd = none ∧
     (run host reg name [] init execCmd seedFd seccompFd bwrapExit tarExit).passFds =
      [seccompFd]) := by
  have hne' : seeds.isEmpty = false := by
    cases seeds with
    | nil => exact absurd rfl hne
    | cons a l => rfl
  refine ⟨?_, ?_, ?_, ?_, ?_⟩
  · simp [run, hne', tarArgs_eq_spec]
  · refine ⟨bwrapHead host name init,
      bwrapTail host name seccompFd init execCmd, ?_⟩
    simp [run, hne', seedFileArgs, List.append_assoc]
  · simp [run, hne']
  · simp [run]
  · simp [run]

/-- Witness for `run_tar_construction`: concrete invocation archiving the
`configs` and `rust` seeds, in that order. -/
theorem run_tar_construction_witness :
    ((run demoHost (SEEDS demoHost) "e" ["configs", "rust"] none none 7 8 0 0).tarCmd =
      some (["tar", "-c"] ++ specTarArgs demoHost (SEEDS demoHost) ["configs", "rust"])) ∧
    (∃ pre post,
      (run demoHost (SEEDS demoHost) "e" ["configs", "rust"] none none 7 8 0 0).bwrapArgs =
        pre ++ ["--file", toString 7, "/dev/shm/seed.tar"] ++ post) ∧
    ((run demoHost (SEEDS demoHost) "e" ["configs", "rust"] none none 7 8 0 0).passFds =
      [7, 8]) ∧
    ((run demoHost (SEEDS demoHost) "e" [] none none 7 8 0 0).tarCmd = none ∧
     (run demoHost (SEEDS demoHost) "e" [] none none 7 8 0 0).passFds = [8]) :=
  run_tar_construction demoHost (SEEDS demoHost) "e" ["configs", "rust"]
    none none 7 8 0 0 (by decide)

/-- C8: `run` waits on the sandbox process first and raises a hard failure
naming `bwrap` exactly when its exit status is non-zero; the archiver, when
started, is reaped only after the sandbox wait (and not at all on the
failure path); and the archiver's exit status influences neither the wait
sequence nor the failure. -/
theorem run_wait_reap (host : Host) (reg : Registry) (name : String)
    (seeds : List String) (init : Option String) (execCmd : Option (List String))
    (seedFd seccompFd : Nat) (bwrapExit tarExit tarExit' : Int) :
    ((run host reg name seeds init execCmd seedFd seccompFd bwrapExit tarExit).waits.head? =
      some "bwrap") ∧
    ((run host reg name seeds init execCmd seedFd seccompFd bwrapExit tarExit).failure =
      if bwrapExit ≠ 0 then some (bwrapExit, "bwrap") else none) ∧
    (bwrapExit ≠ 0 →
      (run host reg name seeds init execCmd seedFd seccompFd bwrapExit tarExit).waits =
        ["bwrap"]) ∧
    (bwrapExit = 0 → seeds ≠ [] →
      (run host reg name seeds init execCmd seedFd seccompFd bwrapExit tarExit).waits =
        ["bwrap", "tar"]) ∧
    ((run host reg name seeds init execCmd seedFd seccompFd bwrapExit tarExit).waits =
      (run host reg name seeds init execCmd seedFd seccompFd bwrapExit tarExit').waits ∧
     (run host reg name seeds init execCmd seedFd seccompFd bwrapExit tarExit).failure =
      (run host reg name seeds init execCmd seedFd seccompFd bwrapExit tarExit').failure) := by
  refine ⟨?_, ?_, ?_, ?_, ?_, ?_⟩
  · by_cases h : bwrapExit ≠ 0 <;> simp [run, h]
  · rfl
  · intro h; simp [run, h]
  · intro h hne
    have hne' : seeds.isEmpty = false := by
      cases seeds with
      | nil => exact absurd rfl hne
      | cons a l => rfl
    simp [run, h, hne']
  · rfl
  · rfl

/-- Witness for `run_wait_reap`: a successful seeded launch produces the
wait sequence `bwrap` then `tar`, no failure, and ignores the archiver's
status. -/
theorem run_wait_reap_witness :
    ((run demoHost (SEEDS demoHost) "e" ["go"] none none 7 8 0 5).waits.head? =
      some "bwrap") ∧
    ((run demoHost (SEEDS demoHost) "e" ["go"] none none 7 8 0 5).failure =
      if (0 : Int) ≠ 0 then some ((0 : Int), "bwrap") else none) ∧
    ((0 : Int) ≠ 0 →
      (run demoHost (SEEDS demoHost) "e" ["go"] none none 7 8 0 5).waits = ["bwrap"]) ∧
    ((0 : Int) = 0 → (["go"] : List String) ≠ [] →
      (run demoHost (SEEDS demoHost) "e" ["go"] none none 7 8 0 5).waits =
        ["bwrap", "tar"]) ∧
    ((run demoHost (SEEDS demoHost) "e" ["go"] none none 7 8 0 5).waits =
      (run demoHost (SEEDS demoHost) "e" ["go"] none none 7 8 0 99).waits ∧
     (run demoHost (SEEDS demoHost) "e" ["go"] none none 7 8 0 5).failure =
      (run demoHost (SEEDS demoHost) "e" ["go"] none none 7 8 0 99).failure) :=
  run_wait_reap demoHost (SEEDS demoHost) "e" ["go"] none none 7 8 0 5 99

/-- C9: the environment mapping handed to the isolated process depends only
on the host's `DISPLAY`, `HOME`, `SHELL` and `TERM` (two hosts agreeing on
those produce the identical mapping), contains exactly the seven keys
`DISPLAY HOME PATH SANDBOX SHELL TERM TMPDIR`, and its `PATH` places the
sandbox home's own `bin` first. -/
theorem run_env_minimal (h1 h2 : Host) (reg : Registry) (name : String)
    (seeds : List String) (init : Option String) (execCmd : Option (List String))
    (seedFd seccompFd : Nat) (bwrapExit tarExit : Int)
    (hD : h1.env "DISPLAY" = h2.env "DISPLAY")
    (hH : h1.env "HOME" = h2.env "HOME")
    (hS : h1.env "SHELL" = h2.env "SHELL")
    (hT : h1.env "TERM" = h2.env "TERM") :
    ((run h1 reg name seeds init execCmd seedFd seccompFd bwrapExit tarExit).bwrapEnv =
      (run h2 reg name seeds init execCmd seedFd seccompFd bwrapExit tarExit).bwrapEnv) ∧
    ((run h1 reg name seeds init execCmd seedFd seccompFd bwrapExit tarExit).bwrapEnv.map
        Prod.fst =
      ["DISPLAY", "HOME", "PATH", "SANDBOX", "SHELL", "TERM", "TMPDIR"]) ∧
    ((run h1 reg name seeds init execCmd seedFd seccompFd bwrapExit tarExit).bwrapEnv.lookup
        "PATH" =
      some (h1.env "HOME" ++ "/bin:/bin:/sbin")) := by
  refine ⟨?_, ?_, ?_⟩
  · simp [run, homeOf, hD, hH, hS, hT]
  · rfl
  · rfl

/-- Witness for `run_env_minimal`: two hosts differing in a `SECRET`
variable (and hostname) but agreeing on the four read variables get the
identical environment mapping. -/
theorem run_env_minimal_witness :
    ((run demoHost (SEEDS demoHost) "e" [] none none 7 8 0 0).bwrapEnv =
      (run { env := fun v => if v = "SECRET" then "s3cr3t" else demoHost.env v,
             hostname := "other", scriptPath := "/opt/cubicle" }
        (SEEDS demoHost) "e" [] none none 7 8 0 0).bwrapEnv) ∧
    ((run demoHost (SEEDS demoHost) "e" [] none none 7 8 0 0).bwrapEnv.map Prod.fst =
      ["DISPLAY", "HOME", "PATH", "SANDBOX", "SHELL", "TERM", "TMPDIR"]) ∧
    ((run demoHost (SEEDS demoHost) "e" [] none none 7 8 0 0).bwrapEnv.lookup "PATH" =
      some (demoHost.env "HOME" ++ "/bin:/bin:/sbin")) :=
  run_env_minimal demoHost
    { env := fun v => if v = "SECRET" then "s3cr3t" else demoHost.env v,
      hostname := "other", scriptPath := "/opt/cubicle" }
    (SEEDS demoHost) "e" [] none none 7 8 0 0
    (by decide) (by decide) (by decide) (by decide)

/-! ### `list_environments` (dev.py lines 214-249)

Modelled on the directory-name level: the inputs are the subdirectory
names found under `WORK_DIRS` and under `HOME_DIRS`, and the output records
which environment names the listing renders and which paths it hands to
the external `du` scanner. -/

/-- Python `sorted` on strings. -/
def sortStrings (l : List String) : List String :=
  l.mergeSort (fun a b => decide (a ≤ b))

/-- First-occurrence deduplication, as successive `dict.setdefault` calls
produce for the `envs` dictionary's key order. -/
def firstDedup (l : List String) : List String :=
  l.foldl (fun acc n => if n ∈ acc then acc else acc ++ [n]) []

/-- What a `list_environments` call renders and scans. -/
structure ListOut where
  names : List String
  duCalls : List String
deriving DecidableEq

/-- `list_environments(format)` (dev.py lines 214-249).  The `names` format
takes the fast path (dev.py lines 218-222): it sorts and prints only the
subdirectory names of `WORK_DIRS` and never invokes `du`.  Every other
format builds the `envs` dictionary from both roots, running `du` on each
directory entry encountered, and renders the names sorted
(`sorted(envs)` / `sort_keys=True`). -/
def list_environments (host : Host) (format : String)
    (workNames homeNames : List String) : ListOut :=
  if format == "names" then
    { names := sortStrings workNames, duCalls := [] }
  else
    { names := sortStrings (firstDedup (workNames ++ homeNames))
      duCalls :=
        workNames.map (fun n => workDirsOf host ++ "/" ++ n) ++
        homeNames.map (fun n => homeDirsOf host ++ "/" ++ n) }

/-- Membership in `firstDedup` is membership in the underlying list. -/
theorem mem_firstDedup (n : String) (l : List String) :
    n ∈ firstDedup l ↔ n ∈ l := by
  have h : ∀ acc : List String,
      n ∈ l.foldl (fun acc n => if n ∈ acc then acc else acc ++ [n]) acc ↔
        n ∈ acc ∨ n ∈ l := by
    induction l with
    | nil => intro acc; simp
    | cons a t ih =>
        intro acc
        by_cases ha : a ∈ acc
        · rw [List.foldl_cons, if_pos ha, ih]
          constructor
          · rintro (h | h)
            · exact Or.inl h
            · exact Or.inr (List.mem_cons_of_mem a h)
          · rintro (h | h)
            · exact Or.inl h
            · rcases List.mem_cons.mp h with rfl | h
              · exact Or.inl ha
              · exact Or.inr h
        · rw [List.foldl_cons, if_neg ha, ih]
          simp only [List.mem_append, List.mem_singleton, List.mem_cons]
          tauto
  simpa using h []

/-- `firstDedup` yields a duplicate-free list. -/
theorem nodup_firstDedup (l : List String) : (firstDedup l).Nodup := by
  have h : ∀ acc : List String, acc.Nodup →
      (l.foldl (fun acc n => if n ∈ acc then acc else acc ++ [n]) acc).Nodup := by
    induction l with
    | nil => intro acc hacc; simpa using hacc
    | cons a t ih =>
        intro acc hacc
        by_cases ha : a ∈ acc
        · rw [List.foldl_cons, if_pos ha]; exact ih acc hacc
        · rw [List.foldl_cons, if_neg ha]
          refine ih _ ?_
          simpa [List.nodup_append] using ⟨hacc, ha⟩
  exact h [] List.nodup_nil

/-- Membership in `sortStrings` is membership in the input. -/
theorem mem_sortStrings (n : String) (l : List String) :
    n ∈ sortStrings l ↔ n ∈ l :=
  (List.mergeSort_perm l _).mem_iff

/-- `sortStrings` output is sorted by `≤`. -/
theorem sorted_sortStrings (l : List String) :
    List.Pairwise (fun a b => a ≤ b) (sortStrings l) := by
  have h := @List.sorted_mergeSort String
    (fun a b : String => decide (a ≤ b))
    (fun a b c hab hbc => by
      simp only [decide_eq_true_eq] at *
      exact le_trans hab hbc)
    (fun a b => by
      simpa [Bool.or_eq_true, decide_eq_true_eq] using le_total a b)
    l
  exact h.imp (fun hab => of_decide_eq_true hab)

/-- C6 counterexample: an environment whose name appears only under the
home root (here `"x"`) is omitted entirely by the `names` format, so the
claim that every format enumerates the names under either root is false. -/
theorem list_environments_names_misses_home_only :
    (list_environments demoHost "names" [] ["x"]).names = [] := by
  simp [list_environments, sortStrings]

/-- C6 amended: the `default` and `json` formats enumerate exactly the
distinct names under either root (sorted, without duplicates); the `names`
format renders exactly the work-root subdirectory names, sorted, and never
invokes `du`. -/
theorem list_environments_amended (host : Host) (format : String)
    (workNames homeNames : List String) :
    (format ≠ "names" →
      (∀ n, n ∈ (list_environments host format workNames homeNames).names ↔
        (n ∈ workNames ∨ n ∈ homeNames)) ∧
      (list_environments host format workNames homeNames).names.Nodup ∧
      List.Pairwise (fun a b => a ≤ b)
        (list_environments host format workNames homeNames).names) ∧
    (format = "names" →
      (list_environments host format workNames homeNames).names =
        sortStrings workNames ∧
      List.Pairwise (fun a b => a ≤ b)
        (list_environments host format workNames homeNames).names ∧
      (list_environments host format workNames homeNames).duCalls = []) := by
  constructor
  · intro hfmt
    have hfmt' : (format == "names") = false := by
      simpa using hfmt
    refine ⟨?_, ?_, ?_⟩
    · intro n
      simp [list_environments, hfmt', mem_sortStrings, mem_firstDedup]
    · have hnd := nodup_firstDedup (workNames ++ homeNames)
      have hperm := List.mergeSort_perm (firstDedup (workNames ++ homeNames))
        (fun a b : String => decide (a ≤ b))
      simp only [list_environments, hfmt', Bool.false_eq_true, if_false]
      exact hperm.nodup_iff.mpr hnd
    · simp only [list_environments, hfmt', Bool.false_eq_true, if_false]
      exact sorted_sortStrings _
  · intro hfmt
    subst hfmt
    exact ⟨rfl, sorted_sortStrings _, rfl⟩

/-- Witness for `list_environments_amended`: the `json` format merges and
sorts names from both roots, and the `names` format scans nothing. -/
theorem list_environments_amended_witness :
    ((∀ n, n ∈ (list_environments demoHost "json" ["b", "a"] ["a", "c"]).names ↔
        (n ∈ (["b", "a"] : List String) ∨ n ∈ (["a", "c"] : List String))) ∧
      (list_environments demoHost "json" ["b", "a"] ["a", "c"]).names.Nodup ∧
      List.Pairwise (fun a b => a ≤ b)
        (list_environments demoHost "json" ["b", "a"] ["a", "c"]).names) ∧
    ((list_environments demoHost "names" ["b", "a"] ["a", "c"]).names =
        sortStrings ["b", "a"] ∧
      List.Pairwise (fun a b => a ≤ b)
        (list_environments demoHost "names" ["b", "a"] ["a", "c"]).names ∧
      (list_environments demoHost "names" ["b", "a"] ["a", "c"]).duCalls = []) :=
  ⟨(list_environments_amended demoHost "json" ["b", "a"] ["a", "c"]).1
      (by decide),
   (list_environments_amended demoHost "names" ["b", "a"] ["a", "c"]).2 rfl⟩

/-! ### `random_names` (dev.py lines 313-350)

The generator is modelled as a function of the two word sources and a
deterministic random stream `r : Nat → Nat` (the successive values drawn
from Python's `random`; `random.choice(xs)` is modelled as indexing by
`r i % xs.length`, and each random letter consumes one stream value).

* `wordlist` is the line list in scope after the cache/download logic of
  lines 316-327 (`none` when the cache is missing and the download failed,
  in which case source 1 is skipped entirely);
* `dict` is the line list of `/usr/share/dict/words` (`none` when absent).

Python's `str.islower`/`str.isalpha` classify by Unicode properties; they
are modelled exactly for code points below 0x100 (ASCII and Latin-1, the
range exercised here); Python extends the same classification to higher
code points.  `random.choice([])` raises `IndexError`, as does
`line.split()[1]` on a line with fewer than two fields; a raised
`IndexError` aborts the whole generator, modelled as a `crashed` outcome
carrying the candidates yielded so far. -/

/-- Python whitespace (`str.split()` / `str.strip()` separators, ASCII
range). -/
def pySpaceChar (c : Char) : Bool :=
  c.toNat == 32 || c.toNat == 9 || c.toNat == 10 || c.toNat == 13 ||
    c.toNat == 11 || c.toNat == 12

/-- Accumulator-based worker for `pySplit`. -/
def pySplitAux : List Char → List Char → List String
  | [], acc => if acc.isEmpty then [] else [String.mk acc.reverse]
  | c :: cs, acc =>
      if pySpaceChar c then
        if acc.isEmpty then pySplitAux cs []
        else String.mk acc.reverse :: pySplitAux cs []
      else pySplitAux cs (c :: acc)

/-- Python `str.split()` with no argument: split on whitespace runs,
dropping empty fields. -/
def pySplit (s : String) : List String := pySplitAux s.toList []

/-- Python `str.strip()` (ASCII whitespace). -/
def pyStrip (s : String) : String :=
  String.mk (((s.toList.dropWhile pySpaceChar).reverse.dropWhile
    pySpaceChar).reverse)

/-- Uppercase cased character, Python semantics on code points < 0x100:
`A`-`Z` and `À`-`Þ` except `×`. -/
def pyUpperChar (c : Char) : Bool :=
  (decide (65 ≤ c.toNat) && decide (c.toNat ≤ 90)) ||
  (decide (192 ≤ c.toNat) && decide (c.toNat ≤ 222) && decide (c.toNat ≠ 215))

/-- Lowercase character, Python semantics on code points < 0x100:
`a`-`z`, `ª`, `µ`, `º`, and `ß`-`ÿ` except `÷`. -/
def pyLowerChar (c : Char) : Bool :=
  (decide (97 ≤ c.toNat) && decide (c.toNat ≤ 122)) ||
  c.toNat == 170 || c.toNat == 181 || c.toNat == 186 ||
  (decide (223 ≤ c.toNat) && decide (c.toNat ≤ 255) && decide (c.toNat ≠ 247))

/-- Cased character (code points < 0x100). -/
def pyCasedChar (c : Char) : Bool := pyUpperChar c || pyLowerChar c

/-- Unicode letter (code points < 0x100: exactly the cased ones). -/
def pyAlphaChar (c : Char) : Bool := pyUpperChar c || pyLowerChar c

/-- Python `str.islower()`: at least one cased character and no cased
character that is not lowercase. -/
def pyIsLower (s : String) : Bool :=
  s.toList.any pyCasedChar &&
    s.toList.all (fun c => !pyCasedChar c || pyLowerChar c)

/-- Python `str.isalpha()`: non-empty and all characters letters. -/
def pyIsAlpha (s : String) : Bool :=
  !s.isEmpty && s.toList.all pyAlphaChar

/-- The alphabet string of dev.py lines 347 and 350. -/
def asciiLowercase : List Char := "abcdefghijklmnopqrstuvwxyz".toList

/-- One random lowercase letter drawn from the stream. -/
def lowerLetter (n : Nat) : Char := asciiLowercase.getD (n % 26) 'a'

/-- `"".join(random.choices(ascii_lowercase, k=k))` consuming stream
positions `i, i+1, ..., i+k-1`. -/
def randomWord (r : Nat → Nat) (i k : Nat) : String :=
  String.mk ((List.range k).map (fun j => lowerLetter (r (i + j))))

/-- `random.choice(xs)`: raises `IndexError` on an empty sequence,
otherwise returns the element at the drawn index. -/
def pyChoice (xs : List String) (n : Nat) : Except Unit String :=
  if xs.isEmpty then .error () else .ok (xs.getD (n % xs.length) "")

/-- One iteration of source 1 (dev.py lines 329-332):
`word = random.choice(words).split()[1]`, yielded when
`len(word) <= 10 and word.islower() and word.isalpha()`.  `error` is an
uncaught `IndexError` (empty list or a line with fewer than two fields). -/
def wordlistDraw (ws : List String) (r : Nat → Nat) (i : Nat) :
    Except Unit (Option String) :=
  match pyChoice ws (r i) with
  | .error _ => .error ()
  | .ok line =>
      match (pySplit line).get? 1 with
      | none => .error ()
      | some w =>
          .ok (if decide (w.length ≤ 10) && pyIsLower w && pyIsAlpha w
            then some w else none)

/-- One iteration of source 2 (dev.py lines 340-343):
`word = random.choice(words).strip()`, yielded when
`len(word) <= 6 and word.islower() and word.isalpha()`. -/
def dictDraw (ds : List String) (r : Nat → Nat) (i : Nat) :
    Except Unit (Option String) :=
  match pyChoice ds (r i) with
  | .error _ => .error ()
  | .ok line =>
      .ok (if decide ((pyStrip line).length ≤ 6) && pyIsLower (pyStrip line)
            && pyIsAlpha (pyStrip line)
        then some (pyStrip line) else none)

/-- Runs `count` iterations of a draw step from stream position `i`,
accumulating yielded candidates; stops early with the crash flag set when
a step raises. -/
def drawPhase (step : Nat → Except Unit (Option String)) :
    Nat → Nat → List String → List String × Nat × Bool
  | 0, i, acc => (acc, i, false)
  | c + 1, i, acc =>
      match step i with
      | .error _ => (acc, i, true)
      | .ok none => drawPhase step c (i + 1) acc
      | .ok (some w) => drawPhase step c (i + 1) (acc ++ [w])

/-- Source 1: 200 draws when a word list is in scope, skipped entirely
otherwise (dev.py lines 328-332). -/
def phaseWordlist (wordlist : Option (List String)) (r : Nat → Nat) :
    List String × Nat × Bool :=
  match wordlist with
  | none => ([], 0, false)
  | some ws => drawPhase (wordlistDraw ws r) 200 0 []

/-- Source 2: 200 draws when the system dictionary is present (dev.py
lines 334-343). -/
def phaseDict (dict : Option (List String)) (r : Nat → Nat) (i : Nat)
    (acc : List String) : List String × Nat × Bool :=
  match dict with
  | none => (acc, i, false)
  | some ds => drawPhase (dictDraw ds r) 200 i acc

/-- Outcome of running the generator to exhaustion: the full candidate
sequence, or the candidates yielded before an uncaught exception. -/
inductive GenOut where
  | done (names : List String)
  | crashed (names : List String)
deriving DecidableEq

/-- `random_names()` (dev.py lines 313-350) run to exhaustion: sources 1
and 2, then 20 draws of 6 random letters, then one draw of 32 random
letters. -/
def random_names (wordlist dict : Option (List String)) (r : Nat → Nat) :
    GenOut :=
  match phaseWordlist wordlist r with
  | (acc, _, true) => .crashed acc
  | (acc1, i1, false) =>
      match phaseDict dict r i1 acc1 with
      | (acc, _, true) => .crashed acc
      | (acc2, i2, false) =>
          .done (acc2 ++
            (List.range 20).map (fun j => randomWord r (i2 + 6 * j) 6) ++
            [randomWord r (i2 + 120) 32])

/-- C5 counterexample: with the cached word list present and holding the
lines `"1 café"` and `" "`, and the identity random stream, the generator
first yields `"café"` — which passes the code's Unicode `islower`/`isalpha`
filter yet is not composed of lowercase ASCII letters — and then aborts
with an uncaught `IndexError` (the drawn line `" "` has no second field),
so it neither terminates successfully nor ends with the 32-letter draw. -/
theorem random_names_cafe_crash :
    random_names (some ["1 café", " "]) none id = .crashed ["café"] ∧
    ("café".toList.all Char.isLower) = false := by
  decide

/-- A successfully completed draw phase: no step errors, so the phase
consumes exactly `count` stream positions, never crashes, and appends only
words produced by some `ok (some _)` step. -/
theorem drawPhase_ok (step : Nat → Except Unit (Option String))
    (h : ∀ i, step i ≠ .error ()) :
    ∀ (c i : Nat) (acc : List String), ∃ ws,
      drawPhase step c i acc = (acc ++ ws, i + c, false) ∧
      ws.length ≤ c ∧ ∀ w ∈ ws, ∃ j, step j = .ok (some w) := by
  intro c
  induction c with
  | zero => intro i acc; exact ⟨[], by simp [drawPhase], by simp, by simp⟩
  | succ c ih =>
      intro i acc
      cases hstep : step i with
      | error e => cases e; exact absurd hstep (h i)
      | ok o =>
          cases o with
          | none =>
              obtain ⟨ws, heq, hlen, hmem⟩ := ih (i + 1) acc
              refine ⟨ws, ?_, le_trans hlen (Nat.le_succ c), hmem⟩
              have harith : i + 1 + c = i + (c + 1) := by omega
              simp only [drawPhase, hstep, heq, harith]
          | some w =>
              obtain ⟨ws, heq, hlen, hmem⟩ := ih (i + 1) (acc ++ [w])
              refine ⟨w :: ws, ?_, by simpa using Nat.succ_le_succ hlen, ?_⟩
              · have harith : i + 1 + c = i + (c + 1) := by omega
                simp only [drawPhase, hstep, heq, harith, List.append_assoc,
                  List.singleton_append]
              · intro x hx
                rcases List.mem_cons.mp hx with rfl | hx
                · exact ⟨i, hstep⟩
                · exact hmem x hx

/-- An element fetched with an in-range default read belongs to the
list. -/
theorem getD_mem (l : List String) (n : Nat) (hn : n < l.length)
    (d : String) : l.getD n d ∈ l := by
  rw [List.getD_eq_getElem l d hn]
  exact List.getElem_mem hn

/-- Source-1 draws cannot raise when the word list is non-empty and every
line has at least two fields. -/
theorem wordlistDraw_no_error (ws : List String) (r : Nat → Nat)
    (hne : ws ≠ []) (hlines : ∀ line ∈ ws, 2 ≤ (pySplit line).length) :
    ∀ i, wordlistDraw ws r i ≠ .error () := by
  intro i
  have hlen : 0 < ws.length := List.length_pos.mpr hne
  have hne' : ws.isEmpty = false := by
    cases ws with
    | nil => exact absurd rfl hne
    | cons a l => rfl
  have hmem : ws.getD (r i % ws.length) "" ∈ ws :=
    getD_mem ws _ (Nat.mod_lt _ hlen) ""
  have h2 := hlines _ hmem
  have hget : 1 < (pySplit (ws.getD (r i % ws.length) "")).length := h2
  unfold wordlistDraw pyChoice
  simp only [hne', Bool.false_eq_true, if_false]
  rw [List.get?_eq_getElem?, List.getElem?_eq_getElem hget]
  split <;> simp_all

/-- Source-2 draws cannot raise when the dictionary is non-empty. -/
theorem dictDraw_no_error (ds : List String) (r : Nat → Nat)
    (hne : ds ≠ []) : ∀ i, dictDraw ds r i ≠ .error () := by
  intro i
  have hne' : ds.isEmpty = false := by
    cases ds with
    | nil => exact absurd rfl hne
    | cons a l => rfl
  unfold dictDraw pyChoice
  simp only [hne', Bool.false_eq_true, if_false]
  split <;> simp

/-- A word yielded by a source-1 draw satisfies the length-10 filter. -/
theorem wordlistDraw_yield_len (ws : List String) (r : Nat → Nat)
    (i : Nat) (w : String) (h : wordlistDraw ws r i = .ok (some w)) :
    w.length ≤ 10 := by
  unfold wordlistDraw pyChoice at h
  split at h
  · exact absurd h (by simp)
  · split at h
    · exact absurd h (by simp)
    · split at h
      · rename_i hcond
        have := of_decide_eq_true (Bool.and_elim_left (Bool.and_elim_left hcond))
        cases h
        exact this
      · exact absurd h (by simp)

/-- A word yielded by a source-2 draw satisfies the length-6 filter. -/
theorem dictDraw_yield_len (ds : List String) (r : Nat → Nat)
    (i : Nat) (w : String) (h : dictDraw ds r i = .ok (some w)) :
    w.length ≤ 6 := by
  unfold dictDraw pyChoice at h
  split at h
  · exact absurd h (by simp)
  · split at h
    · rename_i hcond
      have := of_decide_eq_true (Bool.and_elim_left (Bool.and_elim_left hcond))
      cases h
      exact this
    · exact absurd h (by simp)

/-- Every alphabet entry is a lowercase ASCII letter. -/
theorem lowerLetter_isLower (n : Nat) : (lowerLetter n).isLower = true := by
  have h : ∀ m, m < 26 → ((asciiLowercase.getD m 'a').isLower = true) := by
    decide
  exact h (n % 26) (Nat.mod_lt _ (by norm_num))

/-- A random `k`-letter word has length `k` and consists of lowercase
ASCII letters only. -/
theorem randomWord_spec (r : Nat → Nat) (i k : Nat) :
    (randomWord r i k).length = k ∧
    ((randomWord r i k).toList.all Char.isLower) = true := by
  constructor
  · show ((List.range k).map (fun j => lowerLetter (r (i + j)))).length = k
    simp
  · apply List.all_eq_true.mpr
    intro c hc
    have : c ∈ (List.range k).map (fun j => lowerLetter (r (i + j))) := hc
    obtain ⟨j, _, rfl⟩ := List.mem_map.mp this
    exact lowerLetter_isLower _

/-- C5 amended: provided every present word source is non-empty and every
word-list line has at least two fields (ruling out the `IndexError`s of
the counterexample), `random_names` terminates successfully with at most
421 candidates, every candidate of length at most 32, ending with the
guaranteed draw of 32 random lowercase ASCII letters; word-source
candidates pass the code's Unicode lowercase/alphabetic filter (which can
admit non-ASCII letters). -/
theorem random_names_amended (wordlist dict : Option (List String))
    (r : Nat → Nat)
    (hwl : ∀ ws, wordlist = some ws →
      ws ≠ [] ∧ ∀ line ∈ ws, 2 ≤ (pySplit line).length)
    (hd : ∀ ds, dict = some ds → ds ≠ []) :
    ∃ names, random_names wordlist dict r = .done names ∧
      names.length ≤ 421 ∧
      (∀ w ∈ names, w.length ≤ 32) ∧
      ∃ lastW, names.getLast? = some lastW ∧ lastW.length = 32 ∧
        (lastW.toList.all Char.isLower) = true := by
  have h1 : ∃ acc1 i1, phaseWordlist wordlist r = (acc1, i1, false) ∧
      acc1.length ≤ 200 ∧ ∀ w ∈ acc1, w.length ≤ 10 := by
    cases wordlist with
    | none => exact ⟨[], 0, rfl, by simp, by simp⟩
    | some ws =>
        obtain ⟨hne, hlines⟩ := hwl ws rfl
        obtain ⟨ws1, heq, hlen, hmem⟩ :=
          drawPhase_ok (wordlistDraw ws r)
            (wordlistDraw_no_error ws r hne hlines) 200 0 []
        refine ⟨ws1, 200, ?_, by simpa using hlen, ?_⟩
        · simpa [phaseWordlist] using heq
        · intro w hw
          obtain ⟨j, hj⟩ := hmem w hw
          exact wordlistDraw_yield_len ws r j w hj
  obtain ⟨acc1, i1, heq1, hlen1, hw1⟩ := h1
  have h2 : ∃ ws2 i2, phaseDict dict r i1 acc1 = (acc1 ++ ws2, i2, false) ∧
      ws2.length ≤ 200 ∧ ∀ w ∈ ws2, w.length ≤ 6 := by
    cases dict with
    | none => exact ⟨[], i1, by simp [phaseDict], by simp, by simp⟩
    | some ds =>
        obtain ⟨ws2, heq, hlen, hmem⟩ :=
          drawPhase_ok (dictDraw ds r) (dictDraw_no_error ds r (hd ds rfl))
            200 i1 acc1
        refine ⟨ws2, i1 + 200, ?_, hlen, ?_⟩
        · simpa [phaseDict] using heq
        · intro w hw
          obtain ⟨j, hj⟩ := hmem w hw
          exact dictDraw_yield_len ds r j w hj
  obtain ⟨ws2, i2, heq2, hlen2, hw2⟩ := h2
  refine ⟨(acc1 ++ ws2) ++
      (List.range 20).map (fun j => randomWord r (i2 + 6 * j) 6) ++
      [randomWord r (i2 + 120) 32], ?_, ?_, ?_, ?_⟩
  · unfold random_names
    rw [heq1]
    simp only
    rw [heq2]
  · simp only [List.length_append, List.length_map, List.length_range,
      List.length_cons, List.length_nil]
    omega
  · intro w hw
    rcases List.mem_append.mp hw with hw' | hlast
    · rcases List.mem_append.mp hw' with hw12 | hsix
      · rcases List.mem_append.mp hw12 with h1' | h2'
        · exact le_trans (hw1 w h1') (by norm_num)
        · exact le_trans (hw2 w h2') (by norm_num)
      · obtain ⟨j, _, rfl⟩ := List.mem_map.mp hsix
        have := (randomWord_spec r (i2 + 6 * j) 6).1
        omega
    · rcases List.mem_singleton.mp hlast with rfl
      have := (randomWord_spec r (i2 + 120) 32).1
      omega
  · exact ⟨randomWord r (i2 + 120) 32, List.getLast?_concat _,
      (randomWord_spec r (i2 + 120) 32).1, (randomWord_spec r (i2 + 120) 32).2⟩

/-- Witness for `random_names_amended`: with both word sources unavailable
and the identity stream, the generator still terminates successfully via
the letter draws. -/
theorem random_names_amended_witness :
    ∃ names, random_names none none id = .done names ∧
      names.length ≤ 421 ∧
      (∀ w ∈ names, w.length ≤ 32) ∧
      ∃ lastW, names.getLast? = some lastW ∧ lastW.length = 32 ∧
        (lastW.toList.all Char.isLower) = true :=
  random_names_amended none none id (fun ws h => nomatch h)
    (fun ds h => nomatch h)

/-! ### `update_seeds` (dev.py lines 112-127)

The layered resolution loop.  `done` is kept as the ordered list of keys
in the order `update_seed` was invoked on them (the Python `done` set,
ordered); one `while` iteration is `seedRound`, which walks `todo` in
order, processing every key whose dependencies are all already done (the
set grows during the walk, exactly as `done.add(key)` does mid-iteration)
and deferring the rest to `later`.  If an iteration defers everything, the
Python raises `RuntimeError(f"Seed dependencies are unsatisfiable for:
{list(todo)}")`, modelled as `.error todo`. -/

/-- One `for key in todo` sweep (dev.py lines 117-124): returns the grown
`done` list and the deferred `later` list. -/
def seedRound (reg : Registry) (done : List String) :
    List String → List String × List String
  | [] => (done, [])
  | key :: rest =>
      if (depsOf reg key).all (fun d => done.contains d) then
        seedRound reg (done ++ [key]) rest
      else
        ((seedRound reg done rest).1, key :: (seedRound reg done rest).2)

/-- A sweep never defers more keys than it was given. -/
theorem seedRound_len (reg : Registry) (done todo : List String) :
    (seedRound reg done todo).2.length ≤ todo.length := by
  induction todo generalizing done with
  | nil => simp [seedRound]
  | cons key rest ih =>
      by_cases h : ((depsOf reg key).all (fun d => done.contains d)) = true
      · simp only [seedRound, if_pos h]
        exact le_trans (ih (done ++ [key])) (Nat.le_succ _)
      · simp only [seedRound, if_neg h, List.length_cons]
        exact Nat.succ_le_succ (ih done)

/-- The `while len(todo) > 0` loop (dev.py lines 116-127): succeed with
the processing order once `todo` is empty, raise naming the current `todo`
when a sweep makes no progress. -/
def seedLoop (reg : Registry) (done todo : List String) :
    Except (List String) (List String) :=
  if todo.isEmpty then .ok done
  else if (seedRound reg done todo).2.length = todo.length then .error todo
  else seedLoop reg (seedRound reg done todo).1 (seedRound reg done todo).2
termination_by todo.length
decreasing_by
  have hle := seedRound_len reg done todo
  omega

/-- `update_seeds()` (dev.py lines 112-127), abstracted to the resolution
order: `done = set()`, `todo = SEEDS.keys()`, then the loop.  The result is
the ordered list of keys passed to `update_seed`, or the stuck `todo`
named by the raised `RuntimeError`. -/
def update_seeds (reg : Registry) : Except (List String) (List String) :=
  seedLoop reg [] (keysOf reg)

/-- `b` is reachable from `a` in one step of the dependency relation
restricted to registered keys: `b` is a registered key listed in `a`'s
`depends`. -/
def reachB (reg : Registry) : Nat → String → String → Bool
  | 0, _, _ => false
  | fuel + 1, a, b =>
      (depsOf reg a).any
        (fun d => (keysOf reg).contains d && (d == b || reachB reg fuel d b))

/-- The depends relation restricted to registered keys is acyclic: no key
reaches itself by a non-empty dependency path (paths longer than the key
count always revisit a key, so the fuel suffices). -/
def AcyclicB (reg : Registry) : Bool :=
  (keysOf reg).all (fun k => !reachB reg (keysOf reg).length k k)

/-- Every declared dependency refers to a registered seed key (no dangling
reference). -/
def ClosedB (reg : Registry) : Bool :=
  reg.all (fun p => p.2.depends.all (fun d => (keysOf reg).contains d))

/-- Position of the first occurrence of `a` in a list (the list's length
when absent). -/
def idxOf (a : String) : List String → Nat
  | [] => 0
  | b :: l => if b = a then 0 else idxOf a l + 1

/-- An order respects the dependency relation when every listed key's
dependencies occur in the order, strictly before the key. -/
def RespectsDeps (reg : Registry) (order : List String) : Prop :=
  ∀ k ∈ order, ∀ d ∈ depsOf reg k,
    d ∈ order ∧ idxOf d order < idxOf k order

/-- `idxOf` of a present element is a valid position. -/
theorem idxOf_lt_length (a : String) (l : List String) (h : a ∈ l) :
    idxOf a l < l.length := by
  induction l with
  | nil => cases h
  | cons b t ih =>
      by_cases hb : b = a
      · simp [idxOf, hb]
      · rcases List.mem_cons.mp h with rfl | ht
        · exact absurd rfl hb
        · simpa [idxOf, hb] using ih ht

/-- `idxOf` ignores a suffix when the element occurs in the prefix. -/
theorem idxOf_append_left (a : String) (l₁ l₂ : List String) (h : a ∈ l₁) :
    idxOf a (l₁ ++ l₂) = idxOf a l₁ := by
  induction l₁ with
  | nil => cases h
  | cons b t ih =>
      by_cases hb : b = a
      · simp [idxOf, hb]
      · rcases List.mem_cons.mp h with rfl | ht
        · exact absurd rfl hb
        · simp [idxOf, hb, ih ht]

/-- `idxOf` skips a prefix not containing the element. -/
theorem idxOf_append_right (a : String) (l₁ l₂ : List String) (h : a ∉ l₁) :
    idxOf a (l₁ ++ l₂) = l₁.length + idxOf a l₂ := by
  induction l₁ with
  | nil => simp [idxOf]
  | cons b t ih =>
      have hb : b ≠ a := fun hba => h (hba ▸ List.mem_cons_self b t)
      have ht : a ∉ t := fun hta => h (List.mem_cons_of_mem b hta)
      show idxOf a (b :: (t ++ l₂)) = (b :: t).length + idxOf a l₂
      rw [idxOf, if_neg hb, ih ht, List.length_cons]
      omega

/-- Appending a fresh key whose dependencies are all already listed keeps
an order dependency-respecting. -/
theorem respects_append (reg : Registry) (done : List String) (key : String)
    (hfresh : key ∉ done) (hdeps : ∀ d ∈ depsOf reg key, d ∈ done)
    (hr : RespectsDeps reg done) : RespectsDeps reg (done ++ [key]) := by
  intro k hk d hd
  rcases List.mem_append.mp hk with hkdone | hkey
  · obtain ⟨hdin, hidx⟩ := hr k hkdone d hd
    refine ⟨List.mem_append.mpr (Or.inl hdin), ?_⟩
    rw [idxOf_append_left d done [key] hdin,
      idxOf_append_left k done [key] hkdone]
    exact hidx
  · rcases List.mem_singleton.mp hkey with rfl
    have hdin : d ∈ done := hdeps d hd
    refine ⟨List.mem_append.mpr (Or.inl hdin), ?_⟩
    rw [idxOf_append_left d done [k] hdin,
      idxOf_append_right k done [k] hfresh]
    have := idxOf_lt_length d done hdin
    simp only [idxOf]
    omega

/-- Structure of a sweep: the new `done` extends the old one by the
processed keys, and the input `todo` is a permutation of the processed
keys followed by the deferred ones. -/
theorem seedRound_eq (reg : Registry) (done todo : List String) :
    ∃ added later, seedRound reg done todo = (done ++ added, later) ∧
      todo.Perm (added ++ later) := by
  induction todo generalizing done with
  | nil => exact ⟨[], [], by simp [seedRound], by simp⟩
  | cons key rest ih =>
      by_cases h : ((depsOf reg key).all (fun d => done.contains d)) = true
      · obtain ⟨added, later, heq, hperm⟩ := ih (done ++ [key])
        refine ⟨key :: added, later, ?_, ?_⟩
        · simp only [seedRound, if_pos h, heq, List.append_assoc,
            List.singleton_append]
        · simpa using hperm.cons key
      · obtain ⟨added, later, heq, hperm⟩ := ih done
        refine ⟨added, key :: later, ?_, ?_⟩
        · simp only [seedRound, if_neg h, heq]
        · exact (hperm.cons key).trans List.perm_middle.symm

/-- A sweep that defers as many keys as it was given processed none:
`done` is unchanged, `later` is `todo` itself, and every key of `todo` has
a dependency outside the (unchanged) `done`. -/
theorem seedRound_no_progress (reg : Registry) (done todo : List String)
    (h : (seedRound reg done todo).2.length = todo.length) :
    seedRound reg done todo = (done, todo) ∧
      ∀ k ∈ todo, ∃ d ∈ depsOf reg k, done.contains d = false := by
  induction todo generalizing done with
  | nil => exact ⟨by simp [seedRound], by simp⟩
  | cons key rest ih =>
      by_cases hc : ((depsOf reg key).all (fun d => done.contains d)) = true
      · exfalso
        have hle := seedRound_len reg (done ++ [key]) rest
        simp only [seedRound, if_pos hc, List.length_cons] at h
        rw [h] at hle
        simp at hle
      · have hx : seedRound reg done (key :: rest) =
            ((seedRound reg done rest).1, key :: (seedRound reg done rest).2) := by
          simp only [seedRound, if_neg hc]
        have hlen : (seedRound reg done rest).2.length = rest.length := by
          rw [hx] at h
          simpa using h
        obtain ⟨heq, hstuck⟩ := ih done hlen
        rw [hx, heq]
        refine ⟨rfl, ?_⟩
        intro k hk
        rcases List.mem_cons.mp hk with rfl | hkr
        · obtain ⟨d, hd, hdc⟩ := by
            simpa [List.all_eq_true] using hc
          exact ⟨d, hd, by simpa using hdc⟩
        · exact hstuck k hkr

/-- A sweep preserves dependency-respecting processing orders. -/
theorem seedRound_respects (reg : Registry) (done todo : List String)
    (hnd : (done ++ todo).Nodup) (hr : RespectsDeps reg done) :
    RespectsDeps reg (seedRound reg done todo).1 := by
  induction todo generalizing done with
  | nil => simpa [seedRound] using hr
  | cons key rest ih =>
      by_cases hc : ((depsOf reg key).all (fun d => done.contains d)) = true
      · have hfresh : key ∉ done := by
          have hdisj := (List.nodup_append.mp hnd).2.2
          exact fun hkd => hdisj hkd (List.mem_cons_self key rest)
        have hdeps : ∀ d ∈ depsOf reg key, d ∈ done := by
          intro d hd
          have := (List.all_eq_true.mp hc) d hd
          exact List.elem_iff.mp (by simpa using this)
        have hnd' : ((done ++ [key]) ++ rest).Nodup := by
          have : (done ++ [key]) ++ rest = done ++ key :: rest := by simp
          rw [this]; exact hnd
        simp only [seedRound, if_pos hc]
        exact ih (done ++ [key]) hnd' (respects_append reg done key hfresh hdeps hr)
      · have hnd' : (done ++ rest).Nodup := by
          refine List.Nodup.sublist ?_ hnd
          exact List.Sublist.append_left (List.sublist_cons_self key rest) done
        simp only [seedRound, if_neg hc]
        exact ih done hnd' hr

/-- Successor along the dependency relation inside a key set `S`: the
first dependency of `k` lying in `S` (`k` itself when there is none). -/
def depSucc (reg : Registry) (S : List String) (k : String) : String :=
  ((depsOf reg k).find? (fun d => decide (d ∈ S))).getD k

/-- When `k` has some dependency in `S`, `depSucc` is such a
dependency. -/
theorem depSucc_spec (reg : Registry) (S : List String) (k : String)
    (h : ∃ d ∈ depsOf reg k, d ∈ S) :
    depSucc reg S k ∈ S ∧ depSucc reg S k ∈ depsOf reg k := by
  obtain ⟨d, hd, hdS⟩ := h
  cases hfind : (depsOf reg k).find? (fun d => decide (d ∈ S)) with
  | none =>
      exfalso
      have := List.find?_eq_none.mp hfind d hd
      simp [hdS] at this
  | some x =>
      have hxS : x ∈ S := by
        have := List.find?_some hfind
        simpa using this
      have hxd : x ∈ depsOf reg k := List.mem_of_find?_eq_some hfind
      constructor
      · show ((depsOf reg k).find? (fun d => decide (d ∈ S))).getD k ∈ S
        rw [hfind]; exact hxS
      · show ((depsOf reg k).find? (fun d => decide (d ∈ S))).getD k ∈
          depsOf reg k
        rw [hfind]; exact hxd

/-- A non-empty set of distinct registered keys in which every key has a
dependency inside the set yields a dependency cycle, contradicting
`AcyclicB`: iterating `depSucc` must revisit a key (pigeonhole), and the
revisit closes a reachability cycle within the fuel bound. -/
theorem acyclic_source (reg : Registry) (hA : AcyclicB reg = true)
    (S : List String) (hnd : S.Nodup) (hne : S ≠ [])
    (hsub : ∀ k ∈ S, k ∈ keysOf reg)
    (hall : ∀ k ∈ S, ∃ d ∈ depsOf reg k, d ∈ S) : False := by
  classical
  have hstep : ∀ k ∈ S, depSucc reg S k ∈ S ∧ depSucc reg S k ∈ depsOf reg k :=
    fun k hk => depSucc_spec reg S k (hall k hk)
  have hiter : ∀ n, ∀ k ∈ S, (depSucc reg S)^[n] k ∈ S := by
    intro n
    induction n with
    | zero => intro k hk; simpa using hk
    | succ n ih =>
        intro k hk
        rw [Function.iterate_succ_apply]
        exact ih _ (hstep k hk).1
  have hreach : ∀ n, 0 < n → ∀ fuel, n ≤ fuel → ∀ a ∈ S,
      reachB reg fuel a ((depSucc reg S)^[n] a) = true := by
    intro n
    induction n with
    | zero => intro h; exact absurd h (by omega)
    | succ n ih =>
        intro _ fuel hfuel a ha
        obtain ⟨fuel', rfl⟩ : ∃ m, fuel = m + 1 := ⟨fuel - 1, by omega⟩
        have hfa : depSucc reg S a ∈ S := (hstep a ha).1
        have hfd : depSucc reg S a ∈ depsOf reg a := (hstep a ha).2
        have hfk : (keysOf reg).contains (depSucc reg S a) = true :=
          List.elem_iff.mpr (hsub _ hfa)
        simp only [reachB]
        apply List.any_eq_true.mpr
        refine ⟨depSucc reg S a, hfd, ?_⟩
        rw [hfk]
        simp only [Bool.true_and, Bool.or_eq_true]
        cases Nat.eq_zero_or_pos n with
        | inl h0 =>
            subst h0
            left
            simp [Function.iterate_one]
        | inr hpos =>
            right
            rw [Function.iterate_succ_apply]
            exact ih hpos fuel' (by omega) _ hfa
  obtain ⟨k₀, hk₀⟩ := List.exists_mem_of_ne_nil S hne
  have hSlen : S.length ≤ (keysOf reg).length :=
    (List.Nodup.subperm hnd hsub).length_le
  have key : ∀ i j : Nat, i < j → j ≤ S.length →
      (depSucc reg S)^[i] k₀ = (depSucc reg S)^[j] k₀ → False := by
    intro i j hij hjle hEq
    have hxs : (depSucc reg S)^[i] k₀ ∈ S := hiter i k₀ hk₀
    have hm : (depSucc reg S)^[j - i] ((depSucc reg S)^[i] k₀) =
        (depSucc reg S)^[i] k₀ := by
      rw [← Function.iterate_add_apply]
      have harith : j - i + i = j := by omega
      rw [harith, ← hEq]
    have hr := hreach (j - i) (by omega) ((keysOf reg).length)
      (by omega) _ hxs
    rw [hm] at hr
    have hAk := List.all_eq_true.mp hA _ (hsub _ hxs)
    rw [hr] at hAk
    simp at hAk
  have hmaps : ∀ i ∈ Finset.range (S.length + 1),
      (depSucc reg S)^[i] k₀ ∈ S.toFinset :=
    fun i _ => List.mem_toFinset.mpr (hiter i k₀ hk₀)
  have hcard : S.toFinset.card < (Finset.range (S.length + 1)).card := by
    rw [Finset.card_range]
    exact Nat.lt_succ_of_le S.toFinset_card_le
  obtain ⟨i, hi, j, hj, hij, heq⟩ :=
    Finset.exists_ne_map_eq_of_card_lt_of_maps_to hcard hmaps
  have hi' : i ≤ S.length := by
    have := Finset.mem_range.mp hi; omega
  have hj' : j ≤ S.length := by
    have := Finset.mem_range.mp hj; omega
  rcases lt_or_gt_of_ne hij with hlt | hgt
  · exact key i j hlt hj' heq
  · exact key j i hgt hi' heq.symm

/-- Under `ClosedB`, every dependency of any key is a registered key. -/
theorem depsOf_subset_keys (reg : Registry) (hC : ClosedB reg = true)
    (k d : String) (hd : d ∈ depsOf reg k) : d ∈ keysOf reg := by
  unfold depsOf seedSpec at hd
  cases hfind : reg.find? (fun p => p.1 == k) with
  | none =>
      rw [hfind] at hd
      cases hd
  | some p =>
      rw [hfind] at hd
      have hp : p ∈ reg := List.mem_of_find?_eq_some hfind
      have h1 := List.all_eq_true.mp hC p hp
      have h2 := List.all_eq_true.mp h1 d hd
      exact List.elem_iff.mp h2

/-- Under acyclicity and closedness, a sweep of a non-empty `todo` whose
keys together with `done` make up the registry always processes at least
one key. -/
theorem seedRound_progress (reg : Registry) (done todo : List String)
    (hA : AcyclicB reg = true) (hC : ClosedB reg = true)
    (hne : todo ≠ []) (hnd : (done ++ todo).Nodup)
    (hperm : (done ++ todo).Perm (keysOf reg)) :
    (seedRound reg done todo).2.length < todo.length := by
  by_contra hcon
  have hle := seedRound_len reg done todo
  have heq : (seedRound reg done todo).2.length = todo.length := by omega
  obtain ⟨_, hstuck⟩ := seedRound_no_progress reg done todo heq
  have htodonodup : todo.Nodup := (List.nodup_append.mp hnd).2.1
  have hsub : ∀ k ∈ todo, k ∈ keysOf reg := fun k hk =>
    hperm.subset (List.mem_append.mpr (Or.inr hk))
  apply acyclic_source reg hA todo htodonodup hne hsub
  intro k hk
  obtain ⟨d, hd, hdc⟩ := hstuck k hk
  have hdnotdone : d ∉ done := by
    intro hdin
    have hcontains : done.contains d = true := List.elem_iff.mpr hdin
    rw [hcontains] at hdc
    cases hdc
  have hdkeys : d ∈ keysOf reg := depsOf_subset_keys reg hC k d hd
  have hdboth : d ∈ done ++ todo := hperm.symm.subset hdkeys
  rcases List.mem_append.mp hdboth with hdone | htodo
  · exact absurd hdone hdnotdone
  · exact ⟨d, hd, htodo⟩

/-- Soundness of the resolution loop: a success is a dependency-respecting
permutation of the registry keys, and a failure names a non-empty stuck
subset of registered keys each of which depends on another stuck key or on
an unregistered key. -/
theorem seedLoop_sound (reg : Registry) (hkeys : (keysOf reg).Nodup) :
    ∀ (n : Nat) (todo done : List String), todo.length ≤ n →
    (done ++ todo).Perm (keysOf reg) → RespectsDeps reg done →
    (∀ order, seedLoop reg done todo = .ok order →
      order.Perm (keysOf reg) ∧ RespectsDeps reg order) ∧
    (∀ stuck, seedLoop reg done todo = .error stuck →
      stuck ≠ [] ∧ (∀ k ∈ stuck, k ∈ keysOf reg) ∧
      ∀ k ∈ stuck, ∃ d ∈ depsOf reg k, d ∈ stuck ∨ d ∉ keysOf reg) := by
  intro n
  induction n with
  | zero =>
      intro todo done hlen hperm hr
      have htodo : todo = [] := List.eq_nil_of_length_eq_zero (by omega)
      subst htodo
      rw [seedLoop]
      simp only [List.isEmpty_nil, if_true]
      constructor
      · intro order hok
        cases hok
        exact ⟨by simpa using hperm, hr⟩
      · intro stuck herr
        cases herr
  | succ n ih =>
      intro todo done hlen hperm hr
      by_cases hempty : todo.isEmpty = true
      · have htodo : todo = [] := by
          cases todo with
          | nil => rfl
          | cons a l => cases hempty
        subst htodo
        rw [seedLoop]
        simp only [List.isEmpty_nil, if_true]
        constructor
        · intro order hok
          cases hok
          exact ⟨by simpa using hperm, hr⟩
        · intro stuck herr
          cases herr
      · have hne : todo ≠ [] := by
          cases todo with
          | nil => cases hempty rfl
          | cons a l => exact List.cons_ne_nil a l
        have hnd : (done ++ todo).Nodup := hperm.nodup_iff.mpr hkeys
        by_cases hstall : (seedRound reg done todo).2.length = todo.length
        · rw [seedLoop]
          simp only [hempty, hstall, if_true, Bool.false_eq_true, if_false]
          constructor
          · intro order hok
            cases hok
          · intro stuck herr
            cases herr
            obtain ⟨_, hstuck⟩ := seedRound_no_progress reg done todo hstall
            refine ⟨hne, ?_, ?_⟩
            · intro k hk
              exact hperm.subset (List.mem_append.mpr (Or.inr hk))
            · intro k hk
              obtain ⟨d, hd, hdc⟩ := hstuck k hk
              have hdnotdone : d ∉ done := by
                intro hdin
                have hcontains : done.contains d = true := List.elem_iff.mpr hdin
                rw [hcontains] at hdc
                cases hdc
              refine ⟨d, hd, ?_⟩
              by_cases hdk : d ∈ keysOf reg
              · left
                rcases List.mem_append.mp (hperm.symm.subset hdk) with h1 | h2
                · exact absurd h1 hdnotdone
                · exact h2
              · right
                exact hdk
        · obtain ⟨added, later, heqr, hpermr⟩ := seedRound_eq reg done todo
          have h1 : (seedRound reg done todo).1 = done ++ added := by
            rw [heqr]
          have h2 : (seedRound reg done todo).2 = later := by
            rw [heqr]
          have hlenlt : later.length < todo.length := by
            have := seedRound_len reg done todo
            rw [h2] at this hstall
            omega
          have hperm' : ((done ++ added) ++ later).Perm (keysOf reg) := by
            rw [List.append_assoc]
            exact (List.Perm.append_left done hpermr.symm).trans hperm
          have hr' : RespectsDeps reg (done ++ added) := by
            have := seedRound_respects reg done todo hnd hr
            rw [h1] at this
            exact this
          rw [seedLoop]
          simp only [hempty, hstall, Bool.false_eq_true, if_false]
          rw [h1, h2]
          exact ih later (done ++ added) (by omega) hperm' hr'

/-- Completeness of the resolution loop: under acyclicity and closedness
every round progresses, so the loop reaches `todo = []` and succeeds. -/
theorem seedLoop_complete (reg : Registry) (hkeys : (keysOf reg).Nodup)
    (hA : AcyclicB reg = true) (hC : ClosedB reg = true) :
    ∀ (n : Nat) (todo done : List String), todo.length ≤ n →
    (done ++ todo).Perm (keysOf reg) →
    ∃ order, seedLoop reg done todo = .ok order := by
  intro n
  induction n with
  | zero =>
      intro todo done hlen hperm
      have htodo : todo = [] := List.eq_nil_of_length_eq_zero (by omega)
      subst htodo
      rw [seedLoop]
      exact ⟨done, by simp⟩
  | succ n ih =>
      intro todo done hlen hperm
      by_cases hempty : todo.isEmpty = true
      · have htodo : todo = [] := by
          cases todo with
          | nil => rfl
          | cons a l => cases hempty
        subst htodo
        rw [seedLoop]
        exact ⟨done, by simp⟩
      · have hne : todo ≠ [] := by
          cases todo with
          | nil => cases hempty rfl
          | cons a l => exact List.cons_ne_nil a l
        have hnd : (done ++ todo).Nodup := hperm.nodup_iff.mpr hkeys
        have hprog := seedRound_progress reg done todo hA hC hne hnd hperm
        have hstall : ¬ (seedRound reg done todo).2.length = todo.length := by
          omega
        obtain ⟨added, later, heqr, hpermr⟩ := seedRound_eq reg done todo
        have h1 : (seedRound reg done todo).1 = done ++ added := by rw [heqr]
        have h2 : (seedRound reg done todo).2 = later := by rw [heqr]
        have hperm' : ((done ++ added) ++ later).Perm (keysOf reg) := by
          rw [List.append_assoc]
          exact (List.Perm.append_left done hpermr.symm).trans hperm
        have hlenlt : later.length < todo.length := by
          rw [h2] at hprog
          exact hprog
        rw [seedLoop]
        simp only [hempty, hstall, Bool.false_eq_true, if_false]
        rw [h1, h2]
        exact ih later (done ++ added) (by omega) hperm'

/-- With distinct registry keys, the registry entry of a listed pair is
found by lookup. -/
theorem seedSpec_of_mem (reg : Registry) (hkeys : (keysOf reg).Nodup)
    (p : String × Seed) (hp : p ∈ reg) : seedSpec reg p.1 = p.2 := by
  induction reg with
  | nil => cases hp
  | cons q rest ih =>
      have hkeys' : (keysOf rest).Nodup := (List.nodup_cons.mp hkeys).2
      have hq : q.1 ∉ keysOf rest := (List.nodup_cons.mp hkeys).1
      rcases List.mem_cons.mp hp with rfl | hp'
      · unfold seedSpec
        simp [List.find?]
      · have hpk : p.1 ∈ keysOf rest := List.mem_map_of_mem Prod.fst hp'
        have hne : (q.1 == p.1) = false := by
          apply beq_eq_false_iff_ne.mpr
          intro hqp
          exact hq (hqp ▸ hpk)
        have := ih hkeys' hp'
        unfold seedSpec at this ⊢
        rw [List.find?_cons, hne]
        exact this

/-- A dependency-respecting order covering the registry keys certifies
that no dependency dangles. -/
theorem respects_closed (reg : Registry) (hkeys : (keysOf reg).Nodup)
    (order : List String) (hperm : order.Perm (keysOf reg))
    (hr : RespectsDeps reg order) : ClosedB reg = true := by
  apply List.all_eq_true.mpr
  intro p hp
  apply List.all_eq_true.mpr
  intro d hd
  have hdeps : d ∈ depsOf reg p.1 := by
    unfold depsOf
    rw [seedSpec_of_mem reg hkeys p hp]
    exact hd
  have hk : p.1 ∈ keysOf reg := List.mem_map_of_mem Prod.fst hp
  have hkord : p.1 ∈ order := hperm.mem_iff.mpr hk
  have hdord : d ∈ order := (hr p.1 hkord d hdeps).1
  exact List.elem_iff.mpr (hperm.subset hdord)

/-- A dependency-respecting order covering the registry keys certifies
acyclicity: reachability strictly decreases position in the order. -/
theorem respects_acyclic (reg : Registry) (order : List String)
    (hnd : order.Nodup) (hperm : order.Perm (keysOf reg))
    (hr : RespectsDeps reg order) : AcyclicB reg = true := by
  have hstepdown : ∀ fuel a b, reachB reg fuel a b = true → a ∈ order →
      b ∈ order ∧ idxOf b order < idxOf a order := by
    intro fuel
    induction fuel with
    | zero =>
        intro a b h
        cases h
    | succ fuel ih =>
        intro a b h ha
        simp only [reachB] at h
        obtain ⟨d, hd, hcond⟩ := List.any_eq_true.mp h
        obtain ⟨hdk, hrest⟩ := Bool.and_eq_true_iff.mp hcond
        have hdkeys : d ∈ keysOf reg := List.elem_iff.mp hdk
        have hdord : d ∈ order := hperm.mem_iff.mpr hdkeys
        have hda : idxOf d order < idxOf a order := (hr a ha d hd).2
        rcases Bool.or_eq_true_iff.mp hrest with hdb | hreach'
        · have hdb' : d = b := by simpa using hdb
          subst hdb'
          exact ⟨hdord, hda⟩
        · obtain ⟨hbord, hbd⟩ := ih d b hreach' hdord
          exact ⟨hbord, lt_trans hbd hda⟩
  apply List.all_eq_true.mpr
  intro k hk
  by_contra hcon
  have hreach : reachB reg (keysOf reg).length k k = true := by
    simpa using hcon
  have hkord : k ∈ order := hperm.mem_iff.mpr hk
  exact absurd (hstepdown _ k k hreach hkord).2 (lt_irrefl _)

/-- C1: with distinct registry keys, if the depends relation restricted to
registered keys is acyclic and no dependency references an unknown key,
`update_seeds` processes every seed exactly once (the order is a
duplicate-free permutation of the keys) and each seed only after all of
its dependencies; for every other registry (a cycle or a dangling
reference) it raises the unsatisfiable error naming a non-empty stuck set
of still-unordered registered keys, each of which depends on another stuck
key or on an unknown key. -/
theorem update_seeds_resolver (reg : Registry)
    (hkeys : (keysOf reg).Nodup) :
    (AcyclicB reg = true ∧ ClosedB reg = true →
      ∃ order, update_seeds reg = .ok order ∧
        order.Perm (keysOf reg) ∧ order.Nodup ∧
        ∀ k ∈ order, ∀ d ∈ depsOf reg k,
          d ∈ order ∧ idxOf d order < idxOf k order) ∧
    (¬ (AcyclicB reg = true ∧ ClosedB reg = true) →
      ∃ stuck, update_seeds reg = .error stuck ∧ stuck ≠ [] ∧
        (∀ k ∈ stuck, k ∈ keysOf reg) ∧
        ∀ k ∈ stuck, ∃ d ∈ depsOf reg k,
          d ∈ stuck ∨ d ∉ keysOf reg) := by
  have hperm0 : (([] : List String) ++ keysOf reg).Perm (keysOf reg) := by
    simp
  have hr0 : RespectsDeps reg [] := by
    intro k hk
    cases hk
  have hsound := seedLoop_sound reg hkeys (keysOf reg).length (keysOf reg) []
    le_rfl hperm0 hr0
  constructor
  · rintro ⟨hA, hC⟩
    obtain ⟨order, hok⟩ := seedLoop_complete reg hkeys hA hC
      (keysOf reg).length (keysOf reg) [] le_rfl hperm0
    obtain ⟨hpermo, hro⟩ := hsound.1 order hok
    exact ⟨order, hok, hpermo, hpermo.nodup_iff.mpr hkeys, hro⟩
  · intro hnac
    cases hres : update_seeds reg with
    | ok order =>
        exfalso
        have hres' : seedLoop reg [] (keysOf reg) = .ok order := hres
        obtain ⟨hpermo, hro⟩ := hsound.1 order hres'
        have hndo : order.Nodup := hpermo.nodup_iff.mpr hkeys
        exact hnac ⟨respects_acyclic reg order hndo hpermo hro,
          respects_closed reg hkeys order hpermo hro⟩
    | error stuck =>
        have hres' : seedLoop reg [] (keysOf reg) = .error stuck := hres
        exact ⟨stuck, hres ▸ rfl, hsound.2 stuck hres'⟩

/-- Witness for `update_seeds_resolver`: the concrete registry of dev.py
is acyclic and closed, so resolution succeeds with a dependency-respecting
order over its eight keys. -/
theorem update_seeds_resolver_witness :
    ∃ order, update_seeds (SEEDS demoHost) = .ok order ∧
      order.Perm (keysOf (SEEDS demoHost)) ∧ order.Nodup ∧
      ∀ k ∈ order, ∀ d ∈ depsOf (SEEDS demoHost) k,
        d ∈ order ∧ idxOf d order < idxOf k order :=
  (update_seeds_resolver (SEEDS demoHost) (by decide)).1 ⟨by decide, by decide⟩

end Cubicle
